import Mathlib

/-!
Shallow embedding of the NeuroFlow daily-schedule generator and goal tracker.

The generator is `schedule` in `src/components/DashboardView.tsx` (the
component `src/App.tsx` renders): a single left-to-right sweep over the day
that interleaves calendar meetings with generated break / focus / hobby
blocks.  The goal tracker (`stats` / `goalDiff` / `handleAdjustGoal`) lives in
the dashboard variant `src/unnamed/part_001`.

Times are minute-of-day integers, exactly as in the source (`toMinutes`
produces plain JS numbers; no wrap-around arithmetic occurs).  Calendar
events reach the generator already filtered to the target date and with
their `HH:mm` strings parsed to minutes, which is what the `.filter(...).map(...)`
preamble of the source does; `DayEvent` is the shape of the mapped objects.
The JS `while` loop is modelled with an explicit iteration budget (`fuel`):
every iteration of the source loop either advances the cursor by at least one
minute or removes an event from `dayEvents`, so the budget
`(dayEnd - dayStart).toNat + events.length + 1` used by `schedule` is never
exhausted; all the safety theorems below are proved for every budget.
Presentation-only fields of the source items (`color`) are omitted.
-/

namespace NeuroFlow

/-- The `type` field of `ScheduleItem` in `DashboardView.tsx`:
`'focus' | 'meeting' | 'break' | 'wellness' | 'lunch' | 'hobby'`. -/
inductive SType where
  | focus
  | meeting
  | break_
  | wellness
  | lunch
  | hobby
deriving DecidableEq, Repr

/-- The string literal the source uses for each block type (it appears in the
generated `id`). -/
def typeName : SType → String
  | .focus => "focus"
  | .meeting => "meeting"
  | .break_ => "break"
  | .wellness => "wellness"
  | .lunch => "lunch"
  | .hobby => "hobby"

/-- A calendar event for the target date after the source's
`.filter(e => e.date === activeDay.yyyymmdd).map(...)` step: the summary, the
parsed start/end minutes and the imported `durationMinutes` field (carried
over by the object spread; the source does not recompute it from the
interval). -/
structure DayEvent where
  summary : String
  startMins : Int
  endMins : Int
  durationMinutes : Int
deriving DecidableEq, Repr

/-- A generated schedule block (`ScheduleItem` in the source).  `startMins` is
the numeric minute the source formats into the `startTime` string; `id` is the
source's template string. -/
structure ScheduleItem where
  id : String
  type : SType
  label : String
  startMins : Int
  duration : Int
deriving DecidableEq, Repr

/-- Conversion `toMinutes` from `DashboardView.tsx` lines 176-181: 12-hour clock to
minute-of-day.  `parseInt` of the hour/minute strings is modelled by taking
the integers directly.  Note the source performs no range validation. -/
def toMinutes (h m : Int) (p : String) : Int :=
  let hours := if p = "PM" ∧ h ≠ 12 then h + 12
    else if p = "AM" ∧ h = 12 then 0
    else h
  hours * 60 + m

/-- Predicate `isBreakType` from the source: `['break', 'hobby', 'lunch', 'wellness'].includes(t)`. -/
def isBreakType (t : SType) : Bool :=
  t = .break_ || t = .hobby || t = .lunch || t = .wellness

/-- The source applies `isBreakType(lastType || '')`; a `null` `lastType`
becomes `''`, which is not a break type. -/
def isBreakTypeOpt : Option SType → Bool
  | none => false
  | some t => isBreakType t

/-- Lookup `peakRanges` with the `|| [480, 720]` fallback, from
`DashboardView.tsx` lines 209-212. -/
def peakRanges (w : String) : Int × Int :=
  if w = "Morning" then (480, 720)
  else if w = "Afternoon" then (720, 1020)
  else if w = "Evening" then (1020, 1260)
  else if w = "Late Night" then (1260, 1440)
  else (480, 720)

/-- The object `addSession` pushes: the template-string id
`` `${yyyymmdd}-${type}-${currentTime}` `` plus type, label, start and
duration. -/
def mkItem (ymd : String) (ty : SType) (label : String) (t : Int) (dur : Int) :
    ScheduleItem :=
  { id := ymd ++ "-" ++ typeName ty ++ "-" ++ toString t, type := ty,
    label := label, startMins := t, duration := dur }

/-- Push `addSession` from `DashboardView.tsx` lines 218-227, as a pure function:
given the current cursor and `lastType`, it returns the (possibly empty) list
of pushed items together with the updated cursor and `lastType`.  A
non-positive duration is rejected up front: nothing is pushed and no state
changes. -/
def addSession (ymd : String) (ty : SType) (label : String) (t : Int)
    (lastType : Option SType) (dur : Int) :
    List ScheduleItem × Int × Option SType :=
  if dur ≤ 0 then ([], t, lastType)
  else ([mkItem ymd ty label t dur], t + dur, some ty)

/-- The `while (currentTime < dayEndMins)` sweep of `DashboardView.tsx`
lines 229-270, one constructor application per loop iteration.  Branches, in
source order: the once-per-day lunch anchor (fires in `[780, 840)` when the
previous block was not a rest block), verbatim meeting emission when an event
starts exactly at the cursor (followed by `dayEvents.shift()`), and gap
filling (break after an exertion block or at the start of the day, otherwise
focus while the focus budget lasts, hobby once it is spent).  The final
`else` arm of the source (`currentTime = nextMeeting.endMins` / `dayEndMins`
when `gap <= 0`) is kept verbatim; it is unreachable because `find?`
guarantees `currentTime ≤ nextMeeting.startMins`. -/
def sweep (ymd : String) (dayEndMins peakStart peakEnd : Int) :
    Nat → Int → Int → Option SType → Bool → List DayEvent → List ScheduleItem
  | 0, _, _, _, _, _ => []
  | fuel + 1, currentTime, focusRemaining, lastType, hasLongBreakAnchor, dayEvents =>
    if currentTime < dayEndMins then
      if 780 ≤ currentTime ∧ currentTime < 840 ∧ hasLongBreakAnchor = false ∧
          isBreakTypeOpt lastType = false then
        match addSession ymd .break_ "Lunch Break" currentTime lastType 60 with
        | (emitted, t', lt') =>
          emitted ++ sweep ymd dayEndMins peakStart peakEnd fuel t' focusRemaining lt'
            true dayEvents
      else
        let nextMeeting := dayEvents.find? fun e => decide (currentTime ≤ e.startMins)
        let rest : List ScheduleItem :=
          let gap := match nextMeeting with
            | some m => m.startMins - currentTime
            | none => dayEndMins - currentTime
          if gap > 0 then
            if lastType = some .focus ∨ lastType = some .meeting ∨ lastType = none then
              let breakDur := min (if gap ≥ 45 then (45 : Int) else 15) gap
              match addSession ymd .break_
                  (if breakDur ≥ 45 then "Wellness Break" else "Short break")
                  currentTime lastType breakDur with
              | (emitted, t', lt') =>
                emitted ++ sweep ymd dayEndMins peakStart peakEnd fuel t' focusRemaining lt'
                  hasLongBreakAnchor dayEvents
            else
              let inPeak := decide (peakStart ≤ currentTime ∧ currentTime < peakEnd)
              let focusDur := min (if inPeak then (90 : Int) else 45) gap
              if focusRemaining > 0 then
                let focusDur2 := min focusDur focusRemaining
                match addSession ymd .focus
                    (if inPeak then "Peak Focus Session" else "Standard Focus")
                    currentTime lastType focusDur2 with
                | (emitted, t', lt') =>
                  emitted ++ sweep ymd dayEndMins peakStart peakEnd fuel t'
                    (focusRemaining - focusDur2) lt' hasLongBreakAnchor dayEvents
              else
                match addSession ymd .hobby "Creative Hobby Block" currentTime lastType
                    (min gap 60) with
                | (emitted, t', lt') =>
                  emitted ++ sweep ymd dayEndMins peakStart peakEnd fuel t' focusRemaining lt'
                    hasLongBreakAnchor dayEvents
          else
            match nextMeeting with
            | some m =>
              sweep ymd dayEndMins peakStart peakEnd fuel m.endMins focusRemaining lastType
                hasLongBreakAnchor dayEvents
            | none =>
              sweep ymd dayEndMins peakStart peakEnd fuel dayEndMins focusRemaining lastType
                hasLongBreakAnchor dayEvents
        match nextMeeting with
        | some m =>
          if m.startMins = currentTime then
            match addSession ymd .meeting m.summary currentTime lastType m.durationMinutes with
            | (emitted, t', lt') =>
              emitted ++ sweep ymd dayEndMins peakStart peakEnd fuel t' focusRemaining lt'
                hasLongBreakAnchor dayEvents.tail
          else rest
        | none => rest
    else []

/-- Insert an event into a list sorted ascending by `startMins`, before the
first event that does not start strictly earlier (stable). -/
def insertByStart (e : DayEvent) : List DayEvent → List DayEvent
  | [] => [e]
  | f :: rest =>
    if f.startMins < e.startMins then f :: insertByStart e rest
    else e :: f :: rest

/-- Stable ascending sort by `startMins`, modelling the source's
`.sort((a, b) => a.startMins - b.startMins)` (JS `Array.prototype.sort` is
stable). -/
def sortByStart : List DayEvent → List DayEvent
  | [] => []
  | e :: rest => insertByStart e (sortByStart rest)

/-- The complete generator from `DashboardView.tsx` lines 174-272 for one
day: sort the day's events, resolve the peak window, and run the sweep from
`dayStartMins` with a focus budget of `focusGoal * 60` minutes.  The
iteration budget bounds the source `while` loop (see module comment); it is
never exhausted. -/
def schedule (ymd : String) (dayStartMins dayEndMins : Int) (events : List DayEvent)
    (focusGoal : Int) (peakWindow : String) : List ScheduleItem :=
  let dayEvents := sortByStart events
  let pr := peakRanges peakWindow
  sweep ymd dayEndMins pr.1 pr.2 ((dayEndMins - dayStartMins).toNat + events.length + 1)
    dayStartMins (focusGoal * 60) none false dayEvents

/-- Adjacent events are sorted ascending and non-overlapping: each event ends
no later than the next one starts. -/
def eventsOrdered : List DayEvent → Bool
  | [] => true
  | [_] => true
  | a :: b :: rest => (a.endMins ≤ b.startMins) && eventsOrdered (b :: rest)

/-- The valid-input contract of the spec (§4.4 with the §4.2 normalizer
guarantee): a non-empty day, events sorted and non-overlapping, each event
inside the day with a positive duration that matches its interval. -/
def ValidInput (dayStartMins dayEndMins : Int) (events : List DayEvent) : Prop :=
  dayStartMins < dayEndMins ∧
  eventsOrdered events = true ∧
  ∀ e ∈ events, dayStartMins ≤ e.startMins ∧ e.endMins ≤ dayEndMins ∧
    e.durationMinutes = e.endMins - e.startMins ∧ 0 < e.durationMinutes

instance (dS dE : Int) (ev : List DayEvent) : Decidable (ValidInput dS dE ev) :=
  inferInstanceAs (Decidable (dS < dE ∧ eventsOrdered ev = true ∧
    ∀ e ∈ ev, dS ≤ e.startMins ∧ e.endMins ≤ dE ∧
      e.durationMinutes = e.endMins - e.startMins ∧ 0 < e.durationMinutes))

/-- Total minutes of Focus blocks in a generated schedule. -/
def focusMinutes (s : List ScheduleItem) : Int :=
  ((s.filter fun b => b.type = .focus).map fun b => b.duration).sum

instance : IsTrans ScheduleItem (fun a b => a.startMins < b.startMins) :=
  ⟨fun _ _ _ h1 h2 => lt_trans h1 h2⟩

/-- Result of the goal-alignment comparison `goalDiff` in the dashboard
variant `src/unnamed/part_001` (lines 362-370): the strings
`'match' | 'under' | 'over'`. -/
inductive GoalAlignment where
  | match_
  | under
  | over
deriving DecidableEq, Repr

/-- Accumulation `calcForSchedule` of the tracker (`part_001` lines 334-345):
Focus and Meeting durations count as focus minutes, everything else as break
minutes.  Returns `(focusMins, breakMins)`. -/
def calcForSchedule (s : List ScheduleItem) : Int × Int :=
  s.foldl (fun acc item =>
    if item.type = .focus ∨ item.type = .meeting then (acc.1 + item.duration, acc.2)
    else (acc.1, acc.2 + item.duration)) (0, 0)

/-- Comparison `goalDiff` of scheduled focus minutes against the hour goal
(`part_001` lines 362-370): within 15 minutes the day matches the goal and no
adjustment is offered. -/
def goalDiff (focusMins goalHours : Int) : GoalAlignment :=
  let goalMins := goalHours * 60
  let diff := focusMins - goalMins
  if |diff| < 15 then .match_
  else if diff < 0 then .under
  else .over

/-- Increment (in hours) applied by `handleAdjustGoal('add')` in `part_001`
lines 372-394: one hour when the shortfall is under an hour, otherwise
`Math.ceil(diffHours + 0.5)`.  The JS floating-point computation is exact at
every ceiling boundary (those occur only when `diffMins` is a multiple of 30,
where `diffMins / 60` is exactly representable), so the rational model is
faithful. -/
def addFocusAdjustment (currentMins goalMins : Int) : Int :=
  let diffMins := |currentMins - goalMins|
  if diffMins < 60 then 1
  else ⌈(diffMins : ℚ) / 60 + 1 / 2⌉

/-- Update of the per-date `manualAdjustment` record by
`handleAdjustGoal('add')`: only the active day's key changes.  The record with
its `|| 0` default lookup is modelled as a total function. -/
def applyAddFocus (adj : String → Int) (date : String) (currentMins goalMins : Int) :
    String → Int :=
  fun d => if d = date then adj d + addFocusAdjustment currentMins goalMins else adj d

/-- Effective goal used by `generateSchedule` in `part_001` line 246 (the
no-override path): the configured goal plus the date's manual adjustment, in
hours. -/
def effectiveFocusGoal (focusGoal : Int) (adj : String → Int) (date : String) : Int :=
  focusGoal + adj date



theorem addSession_pos {ymd : String} {ty : SType} {label : String} {t : Int}
    {lt : Option SType} {dur : Int} (h : 0 < dur) :
    addSession ymd ty label t lt dur = ([mkItem ymd ty label t dur], t + dur, some ty) := by
  unfold addSession
  rw [if_neg (by omega)]

theorem addSession_nonpos {ymd : String} {ty : SType} {label : String} {t : Int}
    {lt : Option SType} {dur : Int} (h : dur ≤ 0) :
    addSession ymd ty label t lt dur = ([], t, lt) := by
  unfold addSession
  rw [if_pos h]

section SweepEquations

variable {ymd : String} {dE pS pE t rem : Int} {lt : Option SType} {anchor : Bool}
  {ev : List DayEvent} {n : Nat} {m : DayEvent}

theorem sweep_stop (h : ¬ t < dE) :
    sweep ymd dE pS pE (n + 1) t rem lt anchor ev = [] := by
  rw [sweep, if_neg h]

theorem sweep_lunch (hlt : t < dE)
    (hl : 780 ≤ t ∧ t < 840 ∧ anchor = false ∧ isBreakTypeOpt lt = false) :
    sweep ymd dE pS pE (n + 1) t rem lt anchor ev =
      mkItem ymd .break_ "Lunch Break" t 60 ::
        sweep ymd dE pS pE n (t + 60) rem (some .break_) true ev := by
  rw [sweep, if_pos hlt, if_pos hl, addSession_pos (by omega)]
  rfl

theorem sweep_meeting (hlt : t < dE)
    (hl : ¬(780 ≤ t ∧ t < 840 ∧ anchor = false ∧ isBreakTypeOpt lt = false))
    (hfind : ev.find? (fun e => decide (t ≤ e.startMins)) = some m)
    (hm : m.startMins = t) (hdm : 0 < m.durationMinutes) :
    sweep ymd dE pS pE (n + 1) t rem lt anchor ev =
      mkItem ymd .meeting m.summary t m.durationMinutes ::
        sweep ymd dE pS pE n (t + m.durationMinutes) rem (some .meeting) anchor ev.tail := by
  rw [sweep, if_pos hlt, if_neg hl]
  simp only [hfind, if_pos hm, addSession_pos hdm]
  rfl

theorem sweep_meeting_skip (hlt : t < dE)
    (hl : ¬(780 ≤ t ∧ t < 840 ∧ anchor = false ∧ isBreakTypeOpt lt = false))
    (hfind : ev.find? (fun e => decide (t ≤ e.startMins)) = some m)
    (hm : m.startMins = t) (hdm : m.durationMinutes ≤ 0) :
    sweep ymd dE pS pE (n + 1) t rem lt anchor ev =
      sweep ymd dE pS pE n t rem lt anchor ev.tail := by
  rw [sweep, if_pos hlt, if_neg hl]
  simp only [hfind, if_pos hm, addSession_nonpos hdm]
  rfl

end SweepEquations
/-- One loop iteration of `sweep`, classified.  The sweep either stops, drops
the head event without emitting (a non-positive-duration meeting hitting the
`addSession` guard), or emits exactly one block at the cursor and recurses at
the cursor advanced by the block's (positive) duration. -/
theorem sweep_succ_cases (ymd : String) (dE pS pE : Int) (n : Nat) (t rem : Int)
    (lt : Option SType) (anchor : Bool) (ev : List DayEvent) :
    sweep ymd dE pS pE (n + 1) t rem lt anchor ev = [] ∨
    sweep ymd dE pS pE (n + 1) t rem lt anchor ev =
      sweep ymd dE pS pE n t rem lt anchor ev.tail ∨
    (∃ ty label dur rem' anchor' ev',
      sweep ymd dE pS pE (n + 1) t rem lt anchor ev =
        mkItem ymd ty label t dur ::
          sweep ymd dE pS pE n (t + dur) rem' (some ty) anchor' ev' ∧
      t < dE ∧ 0 < dur ∧ (ev' = ev ∨ ev' = ev.tail) ∧
      ((ty = .focus ∧ ¬(lt = some .focus ∨ lt = some .meeting ∨ lt = none) ∧
          0 < rem ∧ dur ≤ rem ∧ rem' = rem - dur) ∨
        (ty ≠ .focus ∧ rem' = rem)) ∧
      (ty = .hobby → ¬(lt = some .focus ∨ lt = some .meeting ∨ lt = none)) ∧
      ((∃ m ∈ ev, t = m.startMins ∧ dur = m.durationMinutes) ∨
        (∃ m ∈ ev, t + dur ≤ m.startMins) ∨
        t + dur ≤ dE ∨
        (ty = .break_ ∧ dur = 60 ∧ 780 ≤ t ∧ t < 840)) ∧
      (ty = .meeting ∨ ty = .break_ ∨ ty = .focus ∨ ty = .hobby)) := by
  by_cases hlt : t < dE
  case neg =>
    left
    exact sweep_stop hlt
  case pos =>
  by_cases hlunch : 780 ≤ t ∧ t < 840 ∧ anchor = false ∧ isBreakTypeOpt lt = false
  case pos =>
    right; right
    refine ⟨.break_, "Lunch Break", 60, rem, true, ev, sweep_lunch hlt hlunch, hlt,
      by omega, Or.inl rfl, Or.inr ⟨by simp, rfl⟩, by simp,
      Or.inr (Or.inr (Or.inr ⟨rfl, rfl, hlunch.1, hlunch.2.1⟩)), by simp⟩
  case neg =>
    rcases hfind : ev.find? (fun e => decide (t ≤ e.startMins)) with _ | m
    · -- no upcoming event: the gap runs to the end of the day
      have hgap : dE - t > 0 := by omega
      by_cases hlast : lt = some .focus ∨ lt = some .meeting ∨ lt = none
      · right; right
        refine ⟨.break_,
          (if min (if dE - t ≥ 45 then (45 : Int) else 15) (dE - t) ≥ 45 then "Wellness Break"
            else "Short break"),
          min (if dE - t ≥ 45 then (45 : Int) else 15) (dE - t), rem,
          anchor, ev, ?_, hlt, by split_ifs <;> omega, Or.inl rfl, Or.inr ⟨by simp, rfl⟩,
          by simp, Or.inr (Or.inr (Or.inl ?_)), by simp⟩
        · rw [sweep, if_pos hlt, if_neg hlunch]
          simp only [hfind]
          rw [if_pos hgap, if_pos hlast,
            addSession_pos (by split_ifs <;> omega)]
          rfl
        · have := min_le_right (if dE - t ≥ 45 then (45 : Int) else 15) (dE - t)
          omega
      · by_cases hrem : rem > 0
        · right; right
          refine ⟨.focus,
            (if decide (pS ≤ t ∧ t < pE) = true then "Peak Focus Session" else "Standard Focus"),
            min (min (if decide (pS ≤ t ∧ t < pE) = true then (90 : Int) else 45) (dE - t)) rem,
            rem - min (min (if decide (pS ≤ t ∧ t < pE) = true then (90 : Int) else 45) (dE - t)) rem,
            anchor, ev, ?_, hlt, by split_ifs <;> omega, Or.inl rfl,
            Or.inl ⟨rfl, hlast, hrem, min_le_right _ _, rfl⟩, by simp,
            Or.inr (Or.inr (Or.inl ?_)), by simp⟩
          · rw [sweep, if_pos hlt, if_neg hlunch]
            simp only [hfind]
            rw [if_pos hgap, if_neg hlast, if_pos hrem,
              addSession_pos (by split_ifs <;> omega)]
            rfl
          · have h1 := min_le_left (if decide (pS ≤ t ∧ t < pE) = true then (90 : Int) else 45) (dE - t)
            have h2 := min_le_right (if decide (pS ≤ t ∧ t < pE) = true then (90 : Int) else 45) (dE - t)
            have h3 := min_le_left (min (if decide (pS ≤ t ∧ t < pE) = true then (90 : Int) else 45) (dE - t)) rem
            omega
        · right; right
          refine ⟨.hobby, "Creative Hobby Block", min (dE - t) 60, rem, anchor, ev, ?_,
            hlt, by omega, Or.inl rfl, Or.inr ⟨by simp, rfl⟩, fun _ => hlast,
            Or.inr (Or.inr (Or.inl ?_)), by simp⟩
          · rw [sweep, if_pos hlt, if_neg hlunch]
            simp only [hfind]
            rw [if_pos hgap, if_neg hlast, if_neg hrem, addSession_pos (by omega)]
            rfl
          · have := min_le_left (dE - t) 60
            omega
    · -- an upcoming event exists
      have htle : t ≤ m.startMins := by
        have h := List.find?_some hfind
        simpa using h
      by_cases hm : m.startMins = t
      · by_cases hdm : m.durationMinutes ≤ 0
        · right; left
          exact sweep_meeting_skip hlt hlunch hfind hm hdm
        · right; right
          refine ⟨.meeting, m.summary, m.durationMinutes, rem, anchor, ev.tail,
            sweep_meeting hlt hlunch hfind hm (by omega), hlt, by omega, Or.inr rfl,
            Or.inr ⟨by simp, rfl⟩, by simp,
            Or.inl ⟨m, List.mem_of_find?_eq_some hfind, hm.symm, rfl⟩, by simp⟩
      · have hgap : m.startMins - t > 0 := by omega
        have hmem := List.mem_of_find?_eq_some hfind
        by_cases hlast : lt = some .focus ∨ lt = some .meeting ∨ lt = none
        · right; right
          refine ⟨.break_,
            (if min (if m.startMins - t ≥ 45 then (45 : Int) else 15) (m.startMins - t) ≥ 45
              then "Wellness Break" else "Short break"),
            min (if m.startMins - t ≥ 45 then (45 : Int) else 15)
            (m.startMins - t), rem, anchor, ev, ?_, hlt, by split_ifs <;> omega,
            Or.inl rfl, Or.inr ⟨by simp, rfl⟩, by simp,
            Or.inr (Or.inl ⟨m, hmem, ?_⟩), by simp⟩
          · rw [sweep, if_pos hlt, if_neg hlunch]
            simp only [hfind]
            rw [if_neg hm, if_pos hgap, if_pos hlast,
              addSession_pos (by split_ifs <;> omega)]
            rfl
          · have := min_le_right (if m.startMins - t ≥ 45 then (45 : Int) else 15) (m.startMins - t)
            omega
        · by_cases hrem : rem > 0
          · right; right
            refine ⟨.focus,
              (if decide (pS ≤ t ∧ t < pE) = true then "Peak Focus Session" else "Standard Focus"),
              min (min (if decide (pS ≤ t ∧ t < pE) = true then (90 : Int) else 45) (m.startMins - t)) rem,
              rem - min (min (if decide (pS ≤ t ∧ t < pE) = true then (90 : Int) else 45) (m.startMins - t)) rem,
              anchor, ev, ?_, hlt, by split_ifs <;> omega, Or.inl rfl,
              Or.inl ⟨rfl, hlast, hrem, min_le_right _ _, rfl⟩, by simp,
              Or.inr (Or.inl ⟨m, hmem, ?_⟩), by simp⟩
            · rw [sweep, if_pos hlt, if_neg hlunch]
              simp only [hfind]
              rw [if_neg hm, if_pos hgap, if_neg hlast, if_pos hrem,
                addSession_pos (by split_ifs <;> omega)]
              rfl
            · have h1 := min_le_left (if decide (pS ≤ t ∧ t < pE) = true then (90 : Int) else 45) (m.startMins - t)
              have h2 := min_le_right (if decide (pS ≤ t ∧ t < pE) = true then (90 : Int) else 45) (m.startMins - t)
              have h3 := min_le_left (min (if decide (pS ≤ t ∧ t < pE) = true then (90 : Int) else 45) (m.startMins - t)) rem
              omega
          · right; right
            refine ⟨.hobby, "Creative Hobby Block", min (m.startMins - t) 60, rem, anchor,
              ev, ?_, hlt, by omega, Or.inl rfl, Or.inr ⟨by simp, rfl⟩, fun _ => hlast,
              Or.inr (Or.inl ⟨m, hmem, ?_⟩), by simp⟩
            · rw [sweep, if_pos hlt, if_neg hlunch]
              simp only [hfind]
              rw [if_neg hm, if_pos hgap, if_neg hlast, if_neg hrem, addSession_pos (by omega)]
              rfl
            · have := min_le_left (m.startMins - t) 60
              omega

theorem sweep_duration_pos (ymd : String) (dE pS pE : Int) :
    ∀ (fuel : Nat) (t rem : Int) (lt : Option SType) (anchor : Bool) (ev : List DayEvent),
      ∀ b ∈ sweep ymd dE pS pE fuel t rem lt anchor ev, 0 < b.duration := by
  intro fuel
  induction fuel with
  | zero =>
    intro t rem lt anchor ev b hb
    simp [sweep] at hb
  | succ n ih =>
    intro t rem lt anchor ev b hb
    rcases sweep_succ_cases ymd dE pS pE n t rem lt anchor ev with heq | heq |
      ⟨ty, label, dur, rem', anchor', ev', heq, hlt, hdur, hev', hrem, hhob, hbound, hty⟩ <;>
      rw [heq] at hb
    · simp at hb
    · exact ih _ _ _ _ _ b hb
    · rcases List.mem_cons.mp hb with rfl | hb
      · simpa [mkItem] using hdur
      · exact ih _ _ _ _ _ b hb

theorem sweep_contig (ymd : String) (dE pS pE : Int) :
    ∀ (fuel : Nat) (t rem : Int) (lt : Option SType) (anchor : Bool) (ev : List DayEvent),
      List.Chain' (fun a b => a.startMins + a.duration = b.startMins)
        (sweep ymd dE pS pE fuel t rem lt anchor ev) ∧
      ∀ b ∈ (sweep ymd dE pS pE fuel t rem lt anchor ev).head?, b.startMins = t := by
  intro fuel
  induction fuel with
  | zero =>
    intro t rem lt anchor ev
    simp [sweep]
  | succ n ih =>
    intro t rem lt anchor ev
    rcases sweep_succ_cases ymd dE pS pE n t rem lt anchor ev with heq | heq |
      ⟨ty, label, dur, rem', anchor', ev', heq, hlt, hdur, hev', hrem, hhob, hbound, hty⟩ <;>
      rw [heq]
    · simp
    · exact ih _ _ _ _ _
    · have h := ih (t + dur) rem' (some ty) anchor' ev'
      constructor
      · rw [List.chain'_cons']
        refine ⟨fun b hb => ?_, h.1⟩
        have hb' := h.2 b hb
        simp [mkItem]
        omega
      · intro b hb
        rw [List.head?_cons, Option.mem_some_iff] at hb
        subst hb
        rfl

theorem focusMinutes_cons (a : ScheduleItem) (l : List ScheduleItem) :
    focusMinutes (a :: l) = (if a.type = .focus then a.duration else 0) + focusMinutes l := by
  by_cases h : a.type = .focus <;> simp [focusMinutes, h]

theorem sweep_focus_le (ymd : String) (dE pS pE : Int) :
    ∀ (fuel : Nat) (t rem : Int) (lt : Option SType) (anchor : Bool) (ev : List DayEvent),
      0 ≤ rem → focusMinutes (sweep ymd dE pS pE fuel t rem lt anchor ev) ≤ rem := by
  intro fuel
  induction fuel with
  | zero =>
    intro t rem lt anchor ev hrem
    simpa [sweep, focusMinutes] using hrem
  | succ n ih =>
    intro t rem lt anchor ev hrem
    rcases sweep_succ_cases ymd dE pS pE n t rem lt anchor ev with heq | heq |
      ⟨ty, label, dur, rem', anchor', ev', heq, hlt, hdur, hev', hremc, hhob, hbound, hty⟩ <;>
      rw [heq]
    · simpa [focusMinutes] using hrem
    · exact ih _ _ _ _ _ hrem
    · rcases hremc with ⟨hf, _, hr0, hdr, hr'⟩ | ⟨hnf, hr'⟩
      · subst hf
        rw [hr'] at heq ⊢
        have h := ih (t + dur) (rem - dur) (some .focus) anchor' ev' (by omega)
        rw [focusMinutes_cons]
        simp only [mkItem]
        simp
        omega
      · rw [hr'] at heq ⊢
        have h := ih (t + dur) rem (some ty) anchor' ev' hrem
        rw [focusMinutes_cons]
        simp [mkItem, hnf]
        omega

theorem sweep_no_focus (ymd : String) (dE pS pE : Int) :
    ∀ (fuel : Nat) (t rem : Int) (lt : Option SType) (anchor : Bool) (ev : List DayEvent),
      rem ≤ 0 → ∀ b ∈ sweep ymd dE pS pE fuel t rem lt anchor ev, b.type ≠ .focus := by
  intro fuel
  induction fuel with
  | zero =>
    intro t rem lt anchor ev _ b hb
    simp [sweep] at hb
  | succ n ih =>
    intro t rem lt anchor ev hrem b hb
    rcases sweep_succ_cases ymd dE pS pE n t rem lt anchor ev with heq | heq |
      ⟨ty, label, dur, rem', anchor', ev', heq, hlt, hdur, hev', hremc, hhob, hbound, hty⟩ <;>
      rw [heq] at hb
    · simp at hb
    · exact ih _ _ _ _ _ hrem b hb
    · rcases hremc with ⟨hf, _, hr0, _, _⟩ | ⟨hnf, rfl⟩
      · omega
      · rcases List.mem_cons.mp hb with rfl | hb
        · simpa [mkItem] using hnf
        · exact ih _ _ _ _ _ hrem b hb

theorem sweep_alternation (ymd : String) (dE pS pE : Int) :
    ∀ (fuel : Nat) (t rem : Int) (lt : Option SType) (anchor : Bool) (ev : List DayEvent),
      List.Chain' (fun a b => (a.type = .focus ∨ a.type = .meeting) → b.type ≠ .focus)
        (sweep ymd dE pS pE fuel t rem lt anchor ev) ∧
      ((lt = some .focus ∨ lt = some .meeting ∨ lt = none) →
        ∀ b ∈ (sweep ymd dE pS pE fuel t rem lt anchor ev).head?, b.type ≠ .focus) := by
  intro fuel
  induction fuel with
  | zero =>
    intro t rem lt anchor ev
    simp [sweep]
  | succ n ih =>
    intro t rem lt anchor ev
    rcases sweep_succ_cases ymd dE pS pE n t rem lt anchor ev with heq | heq |
      ⟨ty, label, dur, rem', anchor', ev', heq, hlt, hdur, hev', hremc, hhob, hbound, hty⟩ <;>
      rw [heq]
    · simp
    · exact ih _ _ _ _ _
    · have h := ih (t + dur) rem' (some ty) anchor' ev'
      constructor
      · rw [List.chain'_cons']
        refine ⟨fun b hb hex => ?_, h.1⟩
        apply h.2 ?_ b hb
        rcases hex with h1 | h1 <;> simp [mkItem] at h1 <;> subst h1
        · exact Or.inl rfl
        · exact Or.inr (Or.inl rfl)
      · intro hltc b hb
        simp at hb
        subst hb
        rcases hremc with ⟨hf, hnl, _, _, _⟩ | ⟨hnf, _⟩
        · exact absurd hltc hnl
        · simpa [mkItem] using hnf

theorem sweep_bounds (ymd : String) (dE pS pE lo : Int) :
    ∀ (fuel : Nat) (t rem : Int) (lt : Option SType) (anchor : Bool) (ev : List DayEvent),
      lo ≤ t →
      (∀ e ∈ ev, e.endMins ≤ dE ∧ e.durationMinutes = e.endMins - e.startMins ∧
        e.startMins ≤ e.endMins) →
      ∀ b ∈ sweep ymd dE pS pE fuel t rem lt anchor ev,
        lo ≤ b.startMins ∧ b.startMins < dE ∧
          (b.startMins + b.duration ≤ dE ∨
            (b.type = .break_ ∧ b.duration = 60 ∧ 780 ≤ b.startMins ∧ b.startMins < 840)) := by
  intro fuel
  induction fuel with
  | zero =>
    intro t rem lt anchor ev _ _ b hb
    simp [sweep] at hb
  | succ n ih =>
    intro t rem lt anchor ev hlo hev b hb
    rcases sweep_succ_cases ymd dE pS pE n t rem lt anchor ev with heq | heq |
      ⟨ty, label, dur, rem', anchor', ev', heq, hlt, hdur, hev', hremc, hhob, hbound, hty⟩ <;>
      rw [heq] at hb
    · simp at hb
    · exact ih _ _ _ _ _ hlo (fun e he => hev e (List.mem_of_mem_tail he)) b hb
    · rcases List.mem_cons.mp hb with rfl | hb
      · refine ⟨by simpa [mkItem] using hlo, by simpa [mkItem] using hlt, ?_⟩
        simp only [mkItem]
        rcases hbound with ⟨m, hmem, ht, hd⟩ | ⟨m, hmem, hle⟩ | hle | ⟨hbty, hd60, h780, h840⟩
        · left
          have := hev m hmem
          omega
        · left
          have := hev m hmem
          omega
        · left
          exact hle
        · right
          exact ⟨hbty, hd60, h780, h840⟩
      · refine ih (t + dur) rem' (some ty) anchor' ev' (by omega) (fun e he => ?_) b hb
        rcases hev' with rfl | rfl
        · exact hev e he
        · exact hev e (List.mem_of_mem_tail he)

theorem mem_insertByStart {a e : DayEvent} {l : List DayEvent} :
    a ∈ insertByStart e l ↔ a = e ∨ a ∈ l := by
  induction l with
  | nil => simp [insertByStart]
  | cons f rest ih =>
    unfold insertByStart
    split
    · simp only [List.mem_cons, ih]
      tauto
    · simp only [List.mem_cons]

theorem mem_sortByStart {e : DayEvent} {l : List DayEvent} :
    e ∈ sortByStart l ↔ e ∈ l := by
  induction l with
  | nil => simp [sortByStart]
  | cons f rest ih =>
    unfold sortByStart
    rw [mem_insertByStart]
    simp [ih]

theorem schedule_def (ymd : String) (dS dE : Int) (ev : List DayEvent) (fg : Int)
    (pw : String) :
    schedule ymd dS dE ev fg pw =
      sweep ymd dE (peakRanges pw).1 (peakRanges pw).2
        ((dE - dS).toNat + ev.length + 1) dS (fg * 60) none false (sortByStart ev) := rfl

theorem chain'_lt_of_contig :
    ∀ (l : List ScheduleItem), (∀ b ∈ l, 0 < b.duration) →
      List.Chain' (fun a b => a.startMins + a.duration = b.startMins) l →
      List.Chain' (fun a b => a.startMins < b.startMins) l := by
  intro l
  induction l with
  | nil => simp
  | cons a tl ih =>
    intro hpos hc
    rw [List.chain'_cons'] at hc ⊢
    refine ⟨fun b hb => ?_, ih (fun b hb => hpos b (List.mem_cons_of_mem a hb)) hc.2⟩
    have h1 := hc.1 b hb
    have ha := hpos a (List.mem_cons_self a tl)
    omega

theorem calcForSchedule_fst (s : List ScheduleItem) :
    (calcForSchedule s).1 =
      ((s.filter fun i => i.type = .focus ∨ i.type = .meeting).map fun i => i.duration).sum := by
  suffices h : ∀ (l : List ScheduleItem) (a b : Int),
      (l.foldl (fun acc item => if item.type = .focus ∨ item.type = .meeting
        then (acc.1 + item.duration, acc.2) else (acc.1, acc.2 + item.duration)) (a, b)).1 =
      a + ((l.filter fun i => i.type = .focus ∨ i.type = .meeting).map fun i => i.duration).sum by
    simpa [calcForSchedule] using h s 0 0
  intro l
  induction l with
  | nil => simp
  | cons x tl ih =>
    intro a b
    by_cases hx : x.type = .focus ∨ x.type = .meeting
    · simp [List.foldl_cons, hx, ih, List.filter_cons]
      ring
    · simp [List.foldl_cons, hx, ih, List.filter_cons]

theorem one_le_addFocusAdjustment (cm gm : Int) : 1 ≤ addFocusAdjustment cm gm := by
  unfold addFocusAdjustment
  simp only []
  split_ifs with h
  · omega
  · have h60 : (60 : Int) ≤ |cm - gm| := by omega
    have hq : (1 : ℚ) ≤ ((|cm - gm| : Int) : ℚ) / 60 + 1 / 2 := by
      have hc : (60 : ℚ) ≤ ((|cm - gm| : Int) : ℚ) := by exact_mod_cast h60
      linarith
    calc (1 : Int) = ⌈(1 : ℚ)⌉ := by norm_num
      _ ≤ ⌈((|cm - gm| : Int) : ℚ) / 60 + 1 / 2⌉ := Int.ceil_le_ceil hq

/-- C1: for every valid input the generated schedule is contiguous
(`startMinute[i] + durationMinutes[i] = startMinute[i+1]` for adjacent pairs)
and strictly ascending by `startMinute`. -/
theorem schedule_contiguous_ascending (ymd : String) (dS dE : Int) (ev : List DayEvent)
    (fg : Int) (pw : String) (hvalid : ValidInput dS dE ev) :
    List.Chain' (fun a b => a.startMins + a.duration = b.startMins)
      (schedule ymd dS dE ev fg pw) ∧
    List.Pairwise (fun a b => a.startMins < b.startMins) (schedule ymd dS dE ev fg pw) := by
  rw [schedule_def]
  refine ⟨(sweep_contig ymd dE _ _ _ dS (fg * 60) none false _).1, ?_⟩
  exact List.chain'_iff_pairwise.mp
    (chain'_lt_of_contig _
      (sweep_duration_pos ymd dE _ _ _ dS (fg * 60) none false _)
      ((sweep_contig ymd dE _ _ _ dS (fg * 60) none false _).1))

theorem schedule_contiguous_ascending_witness :
    ValidInput 480 600 [⟨"Mtg", 540, 570, 30⟩] ∧
    List.Chain' (fun a b => a.startMins + a.duration = b.startMins)
      (schedule "20260101" 480 600 [⟨"Mtg", 540, 570, 30⟩] 7 "Morning") :=
  ⟨by decide,
    (schedule_contiguous_ascending "20260101" 480 600 [⟨"Mtg", 540, 570, 30⟩] 7 "Morning"
      (by decide)).1⟩

/-- C2 (failing-input evaluation): on a valid input whose second meeting starts
at 780 right after the first one ends, the unconditional 60-minute lunch-anchor
insertion jumps the cursor from 780 to 840, and the 780-810 event "M2" is never
emitted: the schedule's only Meeting block is "M1". -/
theorem meeting_dropped_by_lunch_anchor :
    ValidInput 720 900 [⟨"M1", 720, 780, 60⟩, ⟨"M2", 780, 810, 30⟩] ∧
    ((schedule "20260101" 720 900 [⟨"M1", 720, 780, 60⟩, ⟨"M2", 780, 810, 30⟩] 1
        "Morning").filter fun b => b.type = .meeting).map (fun b => b.label) = ["M1"] := by
  constructor
  · decide
  · decide

/-- C3 (amended): the total minutes of Focus blocks never exceed
`focusGoal * 60`. -/
theorem schedule_focus_le_goal (ymd : String) (dS dE : Int) (ev : List DayEvent)
    (fg : Int) (pw : String) (hfg : 0 ≤ fg) :
    focusMinutes (schedule ymd dS dE ev fg pw) ≤ fg * 60 := by
  rw [schedule_def]
  exact sweep_focus_le ymd dE _ _ _ dS (fg * 60) none false _ (by omega)

theorem schedule_focus_le_goal_witness :
    (0 : Int) ≤ 7 ∧ focusMinutes (schedule "20260101" 480 1080 [] 7 "Morning") ≤ 7 * 60 :=
  ⟨by decide, schedule_focus_le_goal "20260101" 480 1080 [] 7 "Morning" (by decide)⟩

/-- C3 (counterexample to the equality clause): spec §8 scenario A — a
600-minute day (08:00-18:00) with no events, a seven-hour goal and the Morning
peak window.  The free time (600 minutes) exceeds the 420-minute goal, yet the
generated Focus blocks total only 330 minutes: the 90/45-minute focus caps and
the mandatory rest block after every focus block keep the sum strictly below
the goal. -/
theorem scenarioA_focus_falls_short :
    focusMinutes (schedule "20260101" 480 1080 [] 7 "Morning") = 330 ∧
    (1080 - 480 : Int) ≥ 7 * 60 ∧ (330 : Int) < 7 * 60 := by
  refine ⟨by decide, by decide, by decide⟩

/-- C4 (amended): every block of a valid input's schedule starts inside
`[dayStart, dayEnd)`, and every block ends by `dayEnd` except possibly the
60-minute lunch-anchor break (which starts in `[780, 840)` and may overrun
`dayEnd`). -/
theorem schedule_blocks_within_day (ymd : String) (dS dE : Int) (ev : List DayEvent)
    (fg : Int) (pw : String) (hvalid : ValidInput dS dE ev) :
    ∀ b ∈ schedule ymd dS dE ev fg pw,
      dS ≤ b.startMins ∧ b.startMins < dE ∧
        (b.startMins + b.duration ≤ dE ∨
          (b.type = .break_ ∧ b.duration = 60 ∧ 780 ≤ b.startMins ∧ b.startMins < 840)) := by
  rw [schedule_def]
  refine sweep_bounds ymd dE _ _ dS _ dS (fg * 60) none false _ le_rfl ?_
  intro e he
  have h := hvalid.2.2 e (mem_sortByStart.mp he)
  exact ⟨h.2.1, h.2.2.1, by omega⟩

theorem schedule_blocks_within_day_witness :
    ValidInput 480 600 [⟨"Mtg", 540, 570, 30⟩] ∧
    ∀ b ∈ schedule "20260101" 480 600 [⟨"Mtg", 540, 570, 30⟩] 7 "Morning",
      480 ≤ b.startMins ∧ b.startMins < 600 ∧
        (b.startMins + b.duration ≤ 600 ∨
          (b.type = .break_ ∧ b.duration = 60 ∧ 780 ≤ b.startMins ∧ b.startMins < 840)) :=
  ⟨by decide,
    schedule_blocks_within_day "20260101" 480 600 [⟨"Mtg", 540, 570, 30⟩] 7 "Morning"
      (by decide)⟩

/-- C4 (counterexample): a valid 780-810 day with no events.  The lunch anchor
fires at 780 and emits a 60-minute break ending at 840, 30 minutes past
`dayEnd`. -/
theorem lunch_anchor_overruns_day_end :
    ValidInput 780 810 [] ∧
    ∃ b ∈ schedule "20260101" 780 810 [] 1 "Morning",
      ¬(b.startMins + b.duration ≤ 810) := by
  constructor
  · decide
  · decide

/-- C5 (amended): after a Focus or Meeting block the next block is never a
Focus block (it is a rest block or a verbatim Meeting). -/
theorem schedule_no_adjacent_focus (ymd : String) (dS dE : Int) (ev : List DayEvent)
    (fg : Int) (pw : String) :
    List.Chain' (fun a b => (a.type = .focus ∨ a.type = .meeting) → b.type ≠ .focus)
      (schedule ymd dS dE ev fg pw) := by
  rw [schedule_def]
  exact (sweep_alternation ymd dE _ _ _ dS (fg * 60) none false _).1

/-- C5 (counterexample): a valid input on which a Focus block is immediately
followed by a Meeting block — two consecutive exertion blocks. -/
theorem focus_meeting_adjacent :
    ValidInput 480 660 [⟨"Standup", 570, 600, 30⟩] ∧
    ¬ List.Chain' (fun a b => (a.type = SType.focus ∨ a.type = SType.meeting) →
        ¬(b.type = SType.focus ∨ b.type = SType.meeting))
      (schedule "20260101" 480 660 [⟨"Standup", 570, 600, 30⟩] 7 "Morning") := by
  refine ⟨by decide, ?_⟩
  intro hchain
  rw [show schedule "20260101" 480 660 [⟨"Standup", 570, 600, 30⟩] 7 "Morning" =
    [⟨"20260101-break-480", .break_, "Wellness Break", 480, 45⟩,
     ⟨"20260101-focus-525", .focus, "Peak Focus Session", 525, 45⟩,
     ⟨"20260101-meeting-570", .meeting, "Standup", 570, 30⟩,
     ⟨"20260101-break-600", .break_, "Wellness Break", 600, 45⟩,
     ⟨"20260101-focus-645", .focus, "Peak Focus Session", 645, 15⟩] from by decide] at hchain
  exact (List.chain'_cons.mp (List.chain'_cons.mp hchain).2).1 (Or.inl rfl) (Or.inr rfl)

/-- C6: with a zero focus goal the schedule contains no Focus block, and a
zero-width day produces the empty schedule. -/
theorem schedule_degenerate (ymd : String) (dS dE : Int) (ev : List DayEvent)
    (fg : Int) (pw : String) :
    (fg = 0 → ∀ b ∈ schedule ymd dS dE ev fg pw, b.type ≠ .focus) ∧
    (dS = dE → schedule ymd dS dE ev fg pw = []) := by
  constructor
  · intro h0 b hb
    rw [schedule_def] at hb
    exact sweep_no_focus ymd dE _ _ _ dS (fg * 60) none false _ (by omega) b hb
  · intro hde
    rw [schedule_def, sweep_stop (by omega)]

theorem schedule_degenerate_witness :
    schedule "20260101" 480 480 [] 0 "Morning" = [] ∧
    (⟨"20260101-hobby-525", SType.hobby, "Creative Hobby Block", 525, 15⟩ :
      ScheduleItem).type ≠ SType.focus :=
  ⟨(schedule_degenerate "20260101" 480 480 [] 0 "Morning").2 rfl,
    (schedule_degenerate "20260101" 480 540 [] 0 "Morning").1 rfl _ (by decide)⟩

/-- C7 (amended): nothing is validated or rejected.  The clock conversion is a
total arithmetic function — out-of-range hours and minutes are silently folded
into a minute count — and a day with `dayEnd ≤ dayStart` silently produces the
empty schedule instead of an error. -/
theorem schedule_silent_on_invalid (ymd : String) (dS dE : Int) (ev : List DayEvent)
    (fg : Int) (pw : String) (h m : Int) (hle : dE ≤ dS) :
    schedule ymd dS dE ev fg pw = [] ∧
    toMinutes h m "AM" = (if h = 12 then 0 else h) * 60 + m ∧
    toMinutes h m "PM" = (if h = 12 then h else h + 12) * 60 + m := by
  refine ⟨?_, ?_, ?_⟩
  · rw [schedule_def, sweep_stop (by omega)]
  · unfold toMinutes
    rw [if_neg (by simp : ¬("AM" = "PM" ∧ h ≠ 12))]
    by_cases h12 : h = 12
    · rw [if_pos ⟨rfl, h12⟩, if_pos h12]
    · rw [if_neg (by simp [h12]), if_neg h12]
  · unfold toMinutes
    by_cases h12 : h = 12
    · rw [if_neg (by simp [h12]), if_neg (by simp), if_pos h12]
    · rw [if_pos ⟨rfl, h12⟩, if_neg h12]

theorem schedule_silent_on_invalid_witness :
    (600 : Int) ≤ 600 ∧ schedule "20260101" 600 600 [] 7 "Morning" = [] :=
  ⟨by decide,
    (schedule_silent_on_invalid "20260101" 600 600 [] 7 "Morning" 0 0 (by decide)).1⟩

/-- C7 (counterexample): contract-violating inputs flow through silently.
Hour 0 with minute 75 converts to 75 minutes, hour 13 converts past the
12-hour range, and both an empty and an inverted day produce the normal empty
result — no input is rejected. -/
theorem invalid_inputs_not_rejected :
    toMinutes 0 75 "AM" = 75 ∧ toMinutes 13 30 "PM" = 1530 ∧
    toMinutes 5 99 "AM" = 399 ∧
    schedule "20260101" 600 600 [] 7 "Morning" = [] ∧
    schedule "20260101" 700 600 [] 7 "Morning" = [] := by
  refine ⟨by decide, by decide, by decide, by decide, by decide⟩

/-- C8: the peak-window resolver is a total function mapping the four named
windows to their fixed ranges and every other string to the Morning range. -/
theorem peakRanges_total_default_morning (w : String)
    (hw : w ≠ "Morning" ∧ w ≠ "Afternoon" ∧ w ≠ "Evening" ∧ w ≠ "Late Night") :
    peakRanges "Morning" = (480, 720) ∧ peakRanges "Afternoon" = (720, 1020) ∧
    peakRanges "Evening" = (1020, 1260) ∧ peakRanges "Late Night" = (1260, 1440) ∧
    peakRanges w = peakRanges "Morning" := by
  refine ⟨by decide, by decide, by decide, by decide, ?_⟩
  unfold peakRanges
  rw [if_neg hw.1, if_neg hw.2.1, if_neg hw.2.2.1, if_neg hw.2.2.2]
  decide

theorem peakRanges_total_default_morning_witness :
    ("Midnight" ≠ "Morning" ∧ "Midnight" ≠ "Afternoon" ∧ "Midnight" ≠ "Evening" ∧
      "Midnight" ≠ "Late Night") ∧
    peakRanges "Midnight" = peakRanges "Morning" :=
  ⟨by decide, (peakRanges_total_default_morning "Midnight" (by decide)).2.2.2.2⟩

/-- C9: the tracker sums Focus and Meeting durations; the day is "on target"
(no adjustment offered) exactly when the absolute difference to the goal is
below 15 minutes; "add focus" raises the per-date effective goal by a rounded
increment of at least one hour, and only for that date. -/
theorem goalTracker_correct (s : List ScheduleItem) (fm g cm gm : Int)
    (adj : String → Int) (date d : String) (hne : d ≠ date) :
    (calcForSchedule s).1 =
      ((s.filter fun i => i.type = .focus ∨ i.type = .meeting).map fun i => i.duration).sum ∧
    (goalDiff fm g = .match_ ↔ |fm - g * 60| < 15) ∧
    1 ≤ addFocusAdjustment cm gm ∧
    effectiveFocusGoal g (applyAddFocus adj date cm gm) date =
      effectiveFocusGoal g adj date + addFocusAdjustment cm gm ∧
    applyAddFocus adj date cm gm d = adj d := by
  refine ⟨calcForSchedule_fst s, ?_, one_le_addFocusAdjustment cm gm, ?_, ?_⟩
  · unfold goalDiff
    simp only []
    split_ifs with h1 h2
    · exact iff_of_true rfl h1
    · exact iff_of_false (by simp) h1
    · exact iff_of_false (by simp) h1
  · unfold effectiveFocusGoal applyAddFocus
    rw [if_pos rfl]
    ring
  · unfold applyAddFocus
    rw [if_neg hne]

theorem goalTracker_correct_witness :
    ("b" ≠ "a") ∧ applyAddFocus (fun _ => 0) "a" 0 0 "b" = (fun _ => (0 : Int)) "b" :=
  ⟨by decide, (goalTracker_correct [] 0 0 0 0 (fun _ => 0) "a" "b" (by decide)).2.2.2.2⟩

/-- C10: every generated block has a strictly positive duration, for every
input whatsoever (the `addSession` guard drops non-positive durations). -/
theorem schedule_durations_positive (ymd : String) (dS dE : Int) (ev : List DayEvent)
    (fg : Int) (pw : String) :
    ∀ b ∈ schedule ymd dS dE ev fg pw, 0 < b.duration := by
  rw [schedule_def]
  exact sweep_duration_pos ymd dE _ _ _ dS (fg * 60) none false _

theorem schedule_durations_positive_witness :
    0 < (⟨"20260101-break-480", SType.break_, "Wellness Break", 480, 45⟩ :
      ScheduleItem).duration :=
  schedule_durations_positive "20260101" 480 660 [⟨"Standup", 570, 600, 30⟩] 7 "Morning" _
    (by decide)

end NeuroFlow
